import Mathlib

/-!
Shallow embedding of the lioness-rs wide-block cipher (src/lib.rs).

Bytes are modelled as `Nat` (all operations are XOR, which never overflows a
byte), byte buffers as `List Nat`.  The two pluggable primitives are modelled
as structures carrying the deterministic functions the code consumes together
with the length laws their Rust types enforce (`GenericArray` sizes).  Rust
panics (`unwrap`, `assert!`, `clone_from_slice` on a mismatched slice) are
modelled as `Option.none`; the recoverable `InvalidBlockLength` error is the
`Except.error` branch of the result, returned together with the final block
contents so that in-place mutation is explicit.
-/

namespace LionessRs

/-- A byte, modelled as a natural number; XOR is `Nat.xor`. -/
abbrev Byte := Nat

/-- Embeds `xor_in_place(a, b)`: XORs `b` into `a` over the zipped range,
leaving any tail of `a` beyond `b.length` unchanged (the in-place mutation of
`a` is returned functionally). -/
def xor_in_place (a b : List Byte) : List Byte :=
  List.zipWith Nat.xor a b ++ a.drop b.length

/-- Embeds `xor(a, b)`: collects `a[i] ^ b[i]` over the zipped range, so the
result is truncated to the shorter of the two lengths. -/
def xor (a b : List Byte) : List Byte :=
  List.zipWith Nat.xor a b

/-- The stream-cipher capability consumed by the construction: a key size, an
IV size, and a deterministic keystream generator (key, IV, requested length).
`apply_keystream` on a buffer of length `n` XORs in the first `n` keystream
bytes, so the generator is modelled as producing exactly the requested
length (`keystream_len`). -/
structure StreamPrim where
  keySize : Nat
  ivSize : Nat
  keystream : List Byte → List Byte → Nat → List Byte
  keystream_len : ∀ k iv n, (keystream k iv n).length = n

/-- The MAC capability consumed by the construction: a key size, a digest
size, and a deterministic digest function (key, message).  The Rust type
guarantees the digest has exactly `outputSize` bytes (`mac_len`). -/
structure MacPrim where
  keySize : Nat
  outputSize : Nat
  mac : List Byte → List Byte → List Byte
  mac_len : ∀ k m, (mac k m).length = outputSize

/-- The all-zero IV (`Default::default()` on the IV `GenericArray`). -/
def zeroIV (S : StreamPrim) : List Byte :=
  List.replicate S.ivSize 0

/-- Embeds `left_xor_assign_digest::<H>(left, right, digest_key)`:
`left ^= H(digest_key, right)` in place; `right` is read-only. -/
def left_xor_assign_digest (H : MacPrim) (left right digest_key : List Byte) :
    List Byte :=
  xor_in_place left (H.mac digest_key right)

/-- Embeds `right_xor_assign_stream::<S>(left, right, stream_key_half)`:
derives `stream_key = xor(left, stream_key_half)` (truncating), keys the
stream cipher with it and the all-zero IV, and XORs the keystream into
`right` in place.  `GenericArray::from_exact_iter(stream_key).unwrap()`
panics unless the derived key has exactly `S.keySize` bytes; the panic is
modelled as `none`. -/
def right_xor_assign_stream (S : StreamPrim) (left right stream_key_half : List Byte) :
    Option (List Byte) :=
  let stream_key := xor left stream_key_half
  if stream_key.length = S.keySize then
    some (List.zipWith Nat.xor right (S.keystream stream_key (zeroIV S) right.length))
  else
    none

/-- The `InvalidBlockLength` error type. -/
inductive InvalidBlockLength where
  | mk
deriving DecidableEq

/-- The keyed cipher instance: the four subkeys.  In Rust `k1`/`k3` have
type-enforced length `S::KeySize` and `k2`/`k4` length `H::KeySize`; those
invariants appear as hypotheses of the theorems below. -/
structure Lioness where
  k1 : List Byte
  k2 : List Byte
  k3 : List Byte
  k4 : List Byte
deriving DecidableEq

/-- Embeds `Lioness::encrypt_block`: length check, split at
`H::OutputSize`, then the four rounds
`R ^= S(L ^ k1); L ^= H(k2, R); R ^= S(L ^ k3); L ^= H(k4, R)`.
The outer `Option` models panics inside the stream rounds; the pair is
(returned `Result`, final block contents). -/
def Lioness.encrypt_block (S : StreamPrim) (H : MacPrim) (c : Lioness)
    (block : List Byte) :
    Option (Except InvalidBlockLength Unit × List Byte) :=
  if block.length ≤ H.outputSize then
    some (Except.error InvalidBlockLength.mk, block)
  else
    let left := block.take H.outputSize
    let right := block.drop H.outputSize
    (right_xor_assign_stream S left right c.k1).bind fun right1 =>
      let left1 := left_xor_assign_digest H left right1 c.k2
      (right_xor_assign_stream S left1 right1 c.k3).bind fun right2 =>
        let left2 := left_xor_assign_digest H left1 right2 c.k4
        some (Except.ok (), left2 ++ right2)

/-- Embeds `Lioness::decrypt_block`: the same length check and split, then
the four rounds in reverse order with reversed subkeys
`L ^= H(k4, R); R ^= S(L ^ k3); L ^= H(k2, R); R ^= S(L ^ k1)`. -/
def Lioness.decrypt_block (S : StreamPrim) (H : MacPrim) (c : Lioness)
    (block : List Byte) :
    Option (Except InvalidBlockLength Unit × List Byte) :=
  if block.length ≤ H.outputSize then
    some (Except.error InvalidBlockLength.mk, block)
  else
    let left := block.take H.outputSize
    let right := block.drop H.outputSize
    let left1 := left_xor_assign_digest H left right c.k4
    (right_xor_assign_stream S left1 right c.k3).bind fun right1 =>
      let left2 := left_xor_assign_digest H left1 right1 c.k2
      (right_xor_assign_stream S left2 right1 c.k1).bind fun right2 =>
        some (Except.ok (), left2 ++ right2)

/-- Embeds `<Lioness as NewBlockCipher>::new`.  The key type fixes the master
key length at `2 * (S::KeySize + H::KeySize)` (any other length cannot reach
the function in Rust; here it is a guard, and `clone_from_slice` would panic
on a mismatched slice anyway).  The run-time
`assert!(H::OutputSize >= S::KeySize)` is the second guard; a failed guard is
the fatal path, modelled as `none`.  The subkeys are the contiguous slices
`key[..sck]`, `key[sck..sck+hk]`, `key[sck+hk..2*sck+hk]`,
`key[2*sck+hk..]`. -/
def Lioness.new (S : StreamPrim) (H : MacPrim) (key : List Byte) :
    Option Lioness :=
  if key.length = 2 * (S.keySize + H.keySize) then
    if S.keySize ≤ H.outputSize then
      let sck := S.keySize
      let hk := H.keySize
      some ⟨key.take sck,
            (key.drop sck).take hk,
            (key.drop (sck + hk)).take sck,
            key.drop (2 * sck + hk)⟩
    else none
  else none

/-- The fixed-size adapter `BlockLioness`: the inner keyed instance plus the
fixed block size `N` (a type-level constant in Rust). -/
structure BlockLioness where
  inner : Lioness
  blockSize : Nat
deriving DecidableEq

/-- Embeds `<BlockLioness as NewBlockCipher>::new`:
`assert!(N > H::OutputSize)` then delegates to `Lioness::new`. -/
def BlockLioness.new (S : StreamPrim) (H : MacPrim) (N : Nat) (key : List Byte) :
    Option BlockLioness :=
  if H.outputSize < N then
    (Lioness.new S H key).map fun inner => ⟨inner, N⟩
  else
    none

/-- Embeds `<BlockLioness as BlockEncrypt>::encrypt_block`: delegates to the
core transform and `unwrap`s, so an `Err` result (or an inner panic) is a
panic, modelled as `none`. -/
def BlockLioness.encrypt_block (S : StreamPrim) (H : MacPrim)
    (c : BlockLioness) (block : List Byte) : Option (List Byte) :=
  match Lioness.encrypt_block S H c.inner block with
  | some (Except.ok _, b) => some b
  | _ => none

/-- Embeds `<BlockLioness as BlockDecrypt>::decrypt_block`: delegates to the
core transform and `unwrap`s. -/
def BlockLioness.decrypt_block (S : StreamPrim) (H : MacPrim)
    (c : BlockLioness) (block : List Byte) : Option (List Byte) :=
  match Lioness.decrypt_block S H c.inner block with
  | some (Except.ok _, b) => some b
  | _ => none

/-! Basic XOR lemmas. -/

theorem xor_in_place_length (a b : List Byte) :
    (xor_in_place a b).length = a.length := by
  simp only [xor_in_place, List.length_append, List.length_zipWith,
    List.length_drop]
  omega

theorem xor_length (a b : List Byte) :
    (xor a b).length = min a.length b.length := by
  simp [xor]

theorem zipWith_xor_cancel :
    ∀ (a b : List Byte), b.length = a.length →
      List.zipWith Nat.xor (List.zipWith Nat.xor a b) b = a
  | [], _, _ => by simp
  | _ :: _, [], h => by simp at h
  | x :: a, y :: b, h => by
    simp only [List.zipWith, List.cons.injEq]
    refine ⟨Nat.xor_cancel_right y x, ?_⟩
    exact zipWith_xor_cancel a b (by simpa using h)

theorem xor_in_place_cancel (a b : List Byte) (h : b.length = a.length) :
    xor_in_place (xor_in_place a b) b = a := by
  have h1 : a.drop b.length = [] := by
    rw [h]; exact List.drop_length a
  have h2 : (List.zipWith Nat.xor a b).length = b.length := by
    simp [List.length_zipWith]; omega
  simp only [xor_in_place, h1, List.append_nil]
  rw [List.drop_eq_nil_of_le (le_of_eq h2), List.append_nil]
  exact zipWith_xor_cancel a b h

/-! Round-function lemmas. -/

theorem left_xor_assign_digest_length (H : MacPrim) (left right k : List Byte) :
    (left_xor_assign_digest H left right k).length = left.length :=
  xor_in_place_length _ _

theorem left_xor_assign_digest_cancel (H : MacPrim) (left right k : List Byte)
    (hl : left.length = H.outputSize) :
    left_xor_assign_digest H (left_xor_assign_digest H left right k) right k
      = left := by
  unfold left_xor_assign_digest
  exact xor_in_place_cancel left (H.mac k right) (by rw [H.mac_len, hl])

/-- The value produced by the stream round on the success path: XOR the
keystream derived from `left` (under the all-zero IV) into `right`. -/
def stream_round (S : StreamPrim) (left right key : List Byte) : List Byte :=
  List.zipWith Nat.xor right (S.keystream (xor left key) (zeroIV S) right.length)

theorem stream_round_length (S : StreamPrim) (left right key : List Byte) :
    (stream_round S left right key).length = right.length := by
  simp [stream_round, List.length_zipWith, S.keystream_len]

theorem right_xor_assign_stream_some (S : StreamPrim)
    (left right key : List Byte)
    (hl : S.keySize ≤ left.length) (hk : key.length = S.keySize) :
    right_xor_assign_stream S left right key
      = some (stream_round S left right key) := by
  have hlen : (xor left key).length = S.keySize := by
    rw [xor_length, hk]; omega
  simp [right_xor_assign_stream, stream_round, hlen]

theorem stream_round_cancel (S : StreamPrim) (left right key : List Byte) :
    stream_round S left (stream_round S left right key) key = right := by
  unfold stream_round
  rw [List.length_zipWith, S.keystream_len, Nat.min_self]
  exact zipWith_xor_cancel right _ (S.keystream_len _ _ _)

/-! Pure characterizations of the two transforms on the success path. -/

/-- The four encryption rounds as a pure pipeline on a valid block. -/
def encryptPure (S : StreamPrim) (H : MacPrim) (c : Lioness)
    (block : List Byte) : List Byte :=
  let left := block.take H.outputSize
  let right := block.drop H.outputSize
  let right1 := stream_round S left right c.k1
  let left1 := left_xor_assign_digest H left right1 c.k2
  let right2 := stream_round S left1 right1 c.k3
  let left2 := left_xor_assign_digest H left1 right2 c.k4
  left2 ++ right2

/-- The four decryption rounds as a pure pipeline on a valid block. -/
def decryptPure (S : StreamPrim) (H : MacPrim) (c : Lioness)
    (block : List Byte) : List Byte :=
  let left := block.take H.outputSize
  let right := block.drop H.outputSize
  let left1 := left_xor_assign_digest H left right c.k4
  let right1 := stream_round S left1 right c.k3
  let left2 := left_xor_assign_digest H left1 right1 c.k2
  let right2 := stream_round S left2 right1 c.k1
  left2 ++ right2

/-- Subkey well-formedness enforced in Rust by the types of `k1`/`k3` and the
constructor assertion. -/
def WfKeys (S : StreamPrim) (H : MacPrim) (c : Lioness) : Prop :=
  c.k1.length = S.keySize ∧ c.k3.length = S.keySize ∧ S.keySize ≤ H.outputSize

theorem take_length_of_lt (H : MacPrim) (block : List Byte)
    (hb : H.outputSize < block.length) :
    (block.take H.outputSize).length = H.outputSize := by
  simp [List.length_take]; omega

theorem encrypt_block_eq_pure (S : StreamPrim) (H : MacPrim) (c : Lioness)
    (block : List Byte) (hw : WfKeys S H c) (hb : H.outputSize < block.length) :
    Lioness.encrypt_block S H c block
      = some (Except.ok (), encryptPure S H c block) := by
  obtain ⟨hk1, hk3, hsk⟩ := hw
  have hL : (block.take H.outputSize).length = H.outputSize :=
    take_length_of_lt H block hb
  have hL1 : (left_xor_assign_digest H (block.take H.outputSize)
      (stream_round S (block.take H.outputSize) (block.drop H.outputSize) c.k1)
      c.k2).length = H.outputSize := by
    rw [left_xor_assign_digest_length, hL]
  simp only [Lioness.encrypt_block, encryptPure]
  rw [if_neg (by omega)]
  rw [right_xor_assign_stream_some S _ _ _ (by omega) hk1, Option.some_bind]
  rw [right_xor_assign_stream_some S _ _ _ (by rw [hL1]; exact hsk) hk3, Option.some_bind]

theorem decrypt_block_eq_pure (S : StreamPrim) (H : MacPrim) (c : Lioness)
    (block : List Byte) (hw : WfKeys S H c) (hb : H.outputSize < block.length) :
    Lioness.decrypt_block S H c block
      = some (Except.ok (), decryptPure S H c block) := by
  obtain ⟨hk1, hk3, hsk⟩ := hw
  have hL : (block.take H.outputSize).length = H.outputSize :=
    take_length_of_lt H block hb
  have hL1 : (left_xor_assign_digest H (block.take H.outputSize)
      (block.drop H.outputSize) c.k4).length = H.outputSize := by
    rw [left_xor_assign_digest_length, hL]
  have hL2 : (left_xor_assign_digest H
      (left_xor_assign_digest H (block.take H.outputSize)
        (block.drop H.outputSize) c.k4)
      (stream_round S
        (left_xor_assign_digest H (block.take H.outputSize)
          (block.drop H.outputSize) c.k4)
        (block.drop H.outputSize) c.k3)
      c.k2).length = H.outputSize := by
    rw [left_xor_assign_digest_length, hL1]
  simp only [Lioness.decrypt_block, decryptPure]
  rw [if_neg (by omega)]
  rw [right_xor_assign_stream_some S _ _ _ (by rw [hL1]; exact hsk) hk3, Option.some_bind]
  rw [right_xor_assign_stream_some S _ _ _ (by rw [hL2]; exact hsk) hk1, Option.some_bind]

theorem encryptPure_length (S : StreamPrim) (H : MacPrim) (c : Lioness)
    (block : List Byte) (hb : H.outputSize < block.length) :
    (encryptPure S H c block).length = block.length := by
  simp only [encryptPure, List.length_append, left_xor_assign_digest_length,
    stream_round_length, take_length_of_lt H block hb, List.length_drop]
  omega

/-- Decrypting the output of the pure encryption pipeline restores the block:
each round is undone by XOR cancellation on the half it wrote, because the
other half (and hence the derived digest or keystream) is unchanged. -/
theorem decryptPure_encryptPure (S : StreamPrim) (H : MacPrim) (c : Lioness)
    (block : List Byte) (hb : H.outputSize < block.length) :
    decryptPure S H c (encryptPure S H c block) = block := by
  have hL : (block.take H.outputSize).length = H.outputSize :=
    take_length_of_lt H block hb
  set L := block.take H.outputSize with hLdef
  set R := block.drop H.outputSize with hRdef
  set R1 := stream_round S L R c.k1 with hR1def
  set L1 := left_xor_assign_digest H L R1 c.k2 with hL1def
  set R2 := stream_round S L1 R1 c.k3 with hR2def
  set L2 := left_xor_assign_digest H L1 R2 c.k4 with hL2def
  have hL1len : L1.length = H.outputSize := by
    rw [hL1def, left_xor_assign_digest_length, hL]
  have hL2len : L2.length = H.outputSize := by
    rw [hL2def, left_xor_assign_digest_length, hL1len]
  have henc : encryptPure S H c block = L2 ++ R2 := by
    simp only [encryptPure]
  rw [henc]
  simp only [decryptPure]
  rw [List.take_left' hL2len, List.drop_left' hL2len]
  have d1 : left_xor_assign_digest H L2 R2 c.k4 = L1 := by
    rw [hL2def]
    exact left_xor_assign_digest_cancel H L1 R2 c.k4 hL1len
  rw [d1]
  have s1 : stream_round S L1 R2 c.k3 = R1 := by
    rw [hR2def]
    exact stream_round_cancel S L1 R1 c.k3
  rw [s1]
  have d2 : left_xor_assign_digest H L1 R1 c.k2 = L := by
    rw [hL1def]
    exact left_xor_assign_digest_cancel H L R1 c.k2 hL
  rw [d2]
  have s2 : stream_round S L R1 c.k1 = R := by
    rw [hR1def]
    exact stream_round_cancel S L R c.k1
  rw [s2, hLdef, hRdef]
  exact List.take_append_drop _ block

/-! Further helper lemmas. -/

theorem zipWith_xor_take (a b : List Byte) :
    List.zipWith Nat.xor a b = List.zipWith Nat.xor (a.take b.length) b := by
  induction a generalizing b with
  | nil => simp
  | cons x a ih =>
    cases b with
    | nil => simp
    | cons y b => simpa using ih b

/-- A successfully constructed keyed instance has well-formed subkeys. -/
theorem new_some_wf (S : StreamPrim) (H : MacPrim) (key : List Byte)
    (c : Lioness) (h : Lioness.new S H key = some c) : WfKeys S H c := by
  unfold Lioness.new at h
  split_ifs at h with h1 h2
  injection h with h
  subst h
  refine ⟨?_, ?_, h2⟩
  · simp only [List.length_take]
    omega
  · simp only [List.length_take, List.length_drop]
    omega

/-- Concrete primitives used to instantiate the theorems below on explicit
inputs: a one-byte-key stream cipher with a two-byte IV, and a MAC with a
one-byte key and a two-byte digest. -/
def testStream : StreamPrim :=
  ⟨1, 2,
   fun k iv n => List.replicate n ((k.headD 0 + iv.headD 0 + 1) % 256),
   fun _ _ n => List.length_replicate n _⟩

def testMac : MacPrim :=
  ⟨1, 2,
   fun k m => [(k.headD 0 + m.length) % 256, (m.foldl Nat.xor 0) % 256],
   fun _ _ => rfl⟩

def testKeys : Lioness :=
  ⟨[5], [7], [9], [11]⟩

/-! The claims. -/

/-- C1: for every keyed instance with well-formed subkeys (the lengths of
`k1`/`k3` are enforced by their Rust types, and `MacOutputSize ≥
StreamKeySize` by the constructor assertion) and every block longer than
`MacOutputSize`, `encrypt_block` then `decrypt_block` both return `Ok` and
the final block contents equal the original block exactly. -/
theorem C1_encrypt_decrypt_roundtrip (S : StreamPrim) (H : MacPrim)
    (c : Lioness) (block : List Byte)
    (hw : WfKeys S H c) (hb : H.outputSize < block.length) :
    ∃ out, Lioness.encrypt_block S H c block = some (Except.ok (), out) ∧
      Lioness.decrypt_block S H c out = some (Except.ok (), block) := by
  refine ⟨encryptPure S H c block, encrypt_block_eq_pure S H c block hw hb, ?_⟩
  have hlen : H.outputSize < (encryptPure S H c block).length := by
    rw [encryptPure_length S H c block hb]
    exact hb
  rw [decrypt_block_eq_pure S H c _ hw hlen,
    decryptPure_encryptPure S H c block hb]

theorem C1_encrypt_decrypt_roundtrip_witness :
    WfKeys testStream testMac testKeys ∧
    testMac.outputSize < ([1, 2, 3] : List Byte).length ∧
    ∃ out,
      Lioness.encrypt_block testStream testMac testKeys [1, 2, 3]
        = some (Except.ok (), out) ∧
      Lioness.decrypt_block testStream testMac testKeys out
        = some (Except.ok (), [1, 2, 3]) :=
  ⟨⟨rfl, rfl, by decide⟩, by decide,
   C1_encrypt_decrypt_roundtrip testStream testMac testKeys [1, 2, 3]
     ⟨rfl, rfl, by decide⟩ (by decide)⟩

/-- C2: a block with `len ≤ MacOutputSize` makes both `encrypt_block` and
`decrypt_block` return the `InvalidBlockLength` error with the block
unchanged; a longer block makes both return `Ok`.  The length check is the
same `block.len() <= H::OutputSize` test in both directions. -/
theorem C2_length_check (S : StreamPrim) (H : MacPrim) (c : Lioness)
    (block : List Byte) (hw : WfKeys S H c) :
    (block.length ≤ H.outputSize →
      Lioness.encrypt_block S H c block
        = some (Except.error InvalidBlockLength.mk, block) ∧
      Lioness.decrypt_block S H c block
        = some (Except.error InvalidBlockLength.mk, block)) ∧
    (H.outputSize < block.length →
      (∃ out, Lioness.encrypt_block S H c block = some (Except.ok (), out)) ∧
      (∃ out, Lioness.decrypt_block S H c block = some (Except.ok (), out))) := by
  constructor
  · intro h
    constructor
    · simp only [Lioness.encrypt_block]
      rw [if_pos h]
    · simp only [Lioness.decrypt_block]
      rw [if_pos h]
  · intro h
    exact ⟨⟨_, encrypt_block_eq_pure S H c block hw h⟩,
           ⟨_, decrypt_block_eq_pure S H c block hw h⟩⟩

theorem C2_length_check_witness :
    WfKeys testStream testMac testKeys ∧
    (([9, 9] : List Byte).length ≤ testMac.outputSize →
      Lioness.encrypt_block testStream testMac testKeys [9, 9]
        = some (Except.error InvalidBlockLength.mk, [9, 9]) ∧
      Lioness.decrypt_block testStream testMac testKeys [9, 9]
        = some (Except.error InvalidBlockLength.mk, [9, 9])) ∧
    (testMac.outputSize < ([9, 9] : List Byte).length →
      (∃ out, Lioness.encrypt_block testStream testMac testKeys [9, 9]
        = some (Except.ok (), out)) ∧
      (∃ out, Lioness.decrypt_block testStream testMac testKeys [9, 9]
        = some (Except.ok (), out))) :=
  ⟨⟨rfl, rfl, by decide⟩,
   C2_length_check testStream testMac testKeys [9, 9] ⟨rfl, rfl, by decide⟩⟩

/-- C3: constructing the keyed instance from a master key of length
`2*(StreamKeySize+MacKeySize)` (under the `MacOutputSize ≥ StreamKeySize`
assertion) yields the four contiguous slices in order; the four slices have
the claimed sizes and concatenate back to the whole master key. -/
theorem C3_new_subkey_slices (S : StreamPrim) (H : MacPrim) (key : List Byte)
    (hlen : key.length = 2 * (S.keySize + H.keySize))
    (hks : S.keySize ≤ H.outputSize) :
    Lioness.new S H key =
      some ⟨key.take S.keySize,
            (key.drop S.keySize).take H.keySize,
            (key.drop (S.keySize + H.keySize)).take S.keySize,
            key.drop (2 * S.keySize + H.keySize)⟩ ∧
    (key.take S.keySize).length = S.keySize ∧
    ((key.drop S.keySize).take H.keySize).length = H.keySize ∧
    ((key.drop (S.keySize + H.keySize)).take S.keySize).length = S.keySize ∧
    (key.drop (2 * S.keySize + H.keySize)).length = H.keySize ∧
    key.take S.keySize ++ ((key.drop S.keySize).take H.keySize ++
      ((key.drop (S.keySize + H.keySize)).take S.keySize ++
        key.drop (2 * S.keySize + H.keySize))) = key := by
  refine ⟨?_, ?_, ?_, ?_, ?_, ?_⟩
  · simp only [Lioness.new]
    rw [if_pos hlen, if_pos hks]
  · simp only [List.length_take]
    omega
  · simp only [List.length_take, List.length_drop]
    omega
  · simp only [List.length_take, List.length_drop]
    omega
  · simp only [List.length_drop]
    omega
  · have e1 : (key.drop S.keySize).drop H.keySize
        = key.drop (S.keySize + H.keySize) := List.drop_drop _ _ _
    have e2 : (key.drop (S.keySize + H.keySize)).drop S.keySize
        = key.drop (2 * S.keySize + H.keySize) := by
      rw [List.drop_drop]
      have : S.keySize + H.keySize + S.keySize = 2 * S.keySize + H.keySize := by
        omega
      rw [this]
    calc key.take S.keySize ++ ((key.drop S.keySize).take H.keySize ++
          ((key.drop (S.keySize + H.keySize)).take S.keySize ++
            key.drop (2 * S.keySize + H.keySize)))
        = key.take S.keySize ++ ((key.drop S.keySize).take H.keySize ++
            ((key.drop (S.keySize + H.keySize)).take S.keySize ++
              (key.drop (S.keySize + H.keySize)).drop S.keySize)) := by
          rw [e2]
      _ = key.take S.keySize ++ ((key.drop S.keySize).take H.keySize ++
            key.drop (S.keySize + H.keySize)) := by
          rw [List.take_append_drop]
      _ = key.take S.keySize ++ ((key.drop S.keySize).take H.keySize ++
            (key.drop S.keySize).drop H.keySize) := by
          rw [e1]
      _ = key.take S.keySize ++ key.drop S.keySize := by
          rw [List.take_append_drop]
      _ = key := List.take_append_drop _ _

theorem C3_new_subkey_slices_witness :
    ([1, 2, 3, 4] : List Byte).length
        = 2 * (testStream.keySize + testMac.keySize) ∧
    testStream.keySize ≤ testMac.outputSize ∧
    (Lioness.new testStream testMac [1, 2, 3, 4]
        = some ⟨([1, 2, 3, 4] : List Byte).take testStream.keySize,
                (([1, 2, 3, 4] : List Byte).drop testStream.keySize).take
                  testMac.keySize,
                (([1, 2, 3, 4] : List Byte).drop
                  (testStream.keySize + testMac.keySize)).take testStream.keySize,
                ([1, 2, 3, 4] : List Byte).drop
                  (2 * testStream.keySize + testMac.keySize)⟩ ∧
      (([1, 2, 3, 4] : List Byte).take testStream.keySize).length
          = testStream.keySize ∧
      ((([1, 2, 3, 4] : List Byte).drop testStream.keySize).take
          testMac.keySize).length = testMac.keySize ∧
      ((([1, 2, 3, 4] : List Byte).drop
          (testStream.keySize + testMac.keySize)).take
            testStream.keySize).length = testStream.keySize ∧
      (([1, 2, 3, 4] : List Byte).drop
          (2 * testStream.keySize + testMac.keySize)).length = testMac.keySize ∧
      ([1, 2, 3, 4] : List Byte).take testStream.keySize ++
        ((([1, 2, 3, 4] : List Byte).drop testStream.keySize).take
            testMac.keySize ++
          ((([1, 2, 3, 4] : List Byte).drop
              (testStream.keySize + testMac.keySize)).take testStream.keySize ++
            ([1, 2, 3, 4] : List Byte).drop
              (2 * testStream.keySize + testMac.keySize))) = [1, 2, 3, 4]) :=
  ⟨by decide, by decide,
   C3_new_subkey_slices testStream testMac [1, 2, 3, 4] (by decide) (by decide)⟩

/-- C4: on a valid block, encryption splits into `Left`/`Right` at
`MacOutputSize` and performs exactly the four rounds
`Right ^= Stream(Left ^ k1)`, `Left ^= MAC(k2, Right)`,
`Right ^= Stream(Left ^ k3)`, `Left ^= MAC(k4, Right)` in this order, the
final block being the updated `Left` followed by the updated `Right`. -/
theorem C4_encrypt_four_rounds (S : StreamPrim) (H : MacPrim) (c : Lioness)
    (block : List Byte) (hw : WfKeys S H c)
    (hb : H.outputSize < block.length) :
    ∃ right1 right2,
      right_xor_assign_stream S (block.take H.outputSize)
          (block.drop H.outputSize) c.k1 = some right1 ∧
      right_xor_assign_stream S
          (left_xor_assign_digest H (block.take H.outputSize) right1 c.k2)
          right1 c.k3 = some right2 ∧
      Lioness.encrypt_block S H c block
        = some (Except.ok (),
            left_xor_assign_digest H
                (left_xor_assign_digest H (block.take H.outputSize) right1 c.k2)
                right2 c.k4
              ++ right2) := by
  obtain ⟨hk1, hk3, hsk⟩ := hw
  have hL := take_length_of_lt H block hb
  refine ⟨stream_round S (block.take H.outputSize) (block.drop H.outputSize) c.k1,
          stream_round S
            (left_xor_assign_digest H (block.take H.outputSize)
              (stream_round S (block.take H.outputSize)
                (block.drop H.outputSize) c.k1) c.k2)
            (stream_round S (block.take H.outputSize)
              (block.drop H.outputSize) c.k1) c.k3,
          ?_, ?_, ?_⟩
  · exact right_xor_assign_stream_some S _ _ _ (by omega) hk1
  · exact right_xor_assign_stream_some S _ _ _
      (by rw [left_xor_assign_digest_length, hL]; exact hsk) hk3
  · rw [encrypt_block_eq_pure S H c block ⟨hk1, hk3, hsk⟩ hb]
    rfl

theorem C4_encrypt_four_rounds_witness :
    WfKeys testStream testMac testKeys ∧
    testMac.outputSize < ([1, 2, 3] : List Byte).length ∧
    ∃ right1 right2,
      right_xor_assign_stream testStream
          (([1, 2, 3] : List Byte).take testMac.outputSize)
          (([1, 2, 3] : List Byte).drop testMac.outputSize) testKeys.k1
        = some right1 ∧
      right_xor_assign_stream testStream
          (left_xor_assign_digest testMac
            (([1, 2, 3] : List Byte).take testMac.outputSize) right1 testKeys.k2)
          right1 testKeys.k3 = some right2 ∧
      Lioness.encrypt_block testStream testMac testKeys [1, 2, 3]
        = some (Except.ok (),
            left_xor_assign_digest testMac
                (left_xor_assign_digest testMac
                  (([1, 2, 3] : List Byte).take testMac.outputSize) right1
                  testKeys.k2)
                right2 testKeys.k4
              ++ right2) :=
  ⟨⟨rfl, rfl, by decide⟩, by decide,
   C4_encrypt_four_rounds testStream testMac testKeys [1, 2, 3]
     ⟨rfl, rfl, by decide⟩ (by decide)⟩

/-- C5: on a valid block, decryption performs the same two round functions in
exactly the reverse step order and reverse subkey order:
`Left ^= MAC(k4, Right)`, `Right ^= Stream(Left ^ k3)`,
`Left ^= MAC(k2, Right)`, `Right ^= Stream(Left ^ k1)`. -/
theorem C5_decrypt_reverse_rounds (S : StreamPrim) (H : MacPrim) (c : Lioness)
    (block : List Byte) (hw : WfKeys S H c)
    (hb : H.outputSize < block.length) :
    ∃ right1 right2,
      right_xor_assign_stream S
          (left_xor_assign_digest H (block.take H.outputSize)
            (block.drop H.outputSize) c.k4)
          (block.drop H.outputSize) c.k3 = some right1 ∧
      right_xor_assign_stream S
          (left_xor_assign_digest H
            (left_xor_assign_digest H (block.take H.outputSize)
              (block.drop H.outputSize) c.k4)
            right1 c.k2)
          right1 c.k1 = some right2 ∧
      Lioness.decrypt_block S H c block
        = some (Except.ok (),
            left_xor_assign_digest H
                (left_xor_assign_digest H (block.take H.outputSize)
                  (block.drop H.outputSize) c.k4)
                right1 c.k2
              ++ right2) := by
  obtain ⟨hk1, hk3, hsk⟩ := hw
  have hL := take_length_of_lt H block hb
  have hL1 : (left_xor_assign_digest H (block.take H.outputSize)
      (block.drop H.outputSize) c.k4).length = H.outputSize := by
    rw [left_xor_assign_digest_length, hL]
  refine ⟨stream_round S
            (left_xor_assign_digest H (block.take H.outputSize)
              (block.drop H.outputSize) c.k4)
            (block.drop H.outputSize) c.k3,
          stream_round S
            (left_xor_assign_digest H
              (left_xor_assign_digest H (block.take H.outputSize)
                (block.drop H.outputSize) c.k4)
              (stream_round S
                (left_xor_assign_digest H (block.take H.outputSize)
                  (block.drop H.outputSize) c.k4)
                (block.drop H.outputSize) c.k3)
              c.k2)
            (stream_round S
              (left_xor_assign_digest H (block.take H.outputSize)
                (block.drop H.outputSize) c.k4)
              (block.drop H.outputSize) c.k3)
            c.k1,
          ?_, ?_, ?_⟩
  · exact right_xor_assign_stream_some S _ _ _ (by rw [hL1]; exact hsk) hk3
  · exact right_xor_assign_stream_some S _ _ _
      (by rw [left_xor_assign_digest_length, hL1]; exact hsk) hk1
  · rw [decrypt_block_eq_pure S H c block ⟨hk1, hk3, hsk⟩ hb]
    rfl

theorem C5_decrypt_reverse_rounds_witness :
    WfKeys testStream testMac testKeys ∧
    testMac.outputSize < ([1, 2, 3] : List Byte).length ∧
    ∃ right1 right2,
      right_xor_assign_stream testStream
          (left_xor_assign_digest testMac
            (([1, 2, 3] : List Byte).take testMac.outputSize)
            (([1, 2, 3] : List Byte).drop testMac.outputSize) testKeys.k4)
          (([1, 2, 3] : List Byte).drop testMac.outputSize) testKeys.k3
        = some right1 ∧
      right_xor_assign_stream testStream
          (left_xor_assign_digest testMac
            (left_xor_assign_digest testMac
              (([1, 2, 3] : List Byte).take testMac.outputSize)
              (([1, 2, 3] : List Byte).drop testMac.outputSize) testKeys.k4)
            right1 testKeys.k2)
          right1 testKeys.k1 = some right2 ∧
      Lioness.decrypt_block testStream testMac testKeys [1, 2, 3]
        = some (Except.ok (),
            left_xor_assign_digest testMac
                (left_xor_assign_digest testMac
                  (([1, 2, 3] : List Byte).take testMac.outputSize)
                  (([1, 2, 3] : List Byte).drop testMac.outputSize) testKeys.k4)
                right1 testKeys.k2
              ++ right2) :=
  ⟨⟨rfl, rfl, by decide⟩, by decide,
   C5_decrypt_reverse_rounds testStream testMac testKeys [1, 2, 3]
     ⟨rfl, rfl, by decide⟩ (by decide)⟩

/-- C6: the stream round derives its per-call key as `left XOR
stream_key_half` truncated to the shorter length, so only the first
`StreamKeySize` bytes of `left` influence it; the stream primitive is keyed
with that derived key and the all-zero IV, and a keystream of length
`len(right)` is XORed into `right` (the output has the same length as
`right`; `left` is not an output of the function at all). -/
theorem C6_stream_round_derived_key (S : StreamPrim) (left right key : List Byte)
    (hl : S.keySize ≤ left.length) (hk : key.length = S.keySize) :
    xor left key = xor (left.take S.keySize) key ∧
    right_xor_assign_stream S left right key
      = some (List.zipWith Nat.xor right
          (S.keystream (xor left key) (List.replicate S.ivSize 0)
            right.length)) ∧
    ∀ out, right_xor_assign_stream S left right key = some out →
      out.length = right.length := by
  have h1 : xor left key = xor (left.take S.keySize) key := by
    unfold xor
    rw [← hk]
    exact zipWith_xor_take left key
  refine ⟨h1, ?_, ?_⟩
  · rw [right_xor_assign_stream_some S left right key hl hk]
    rfl
  · intro out hout
    rw [right_xor_assign_stream_some S left right key hl hk] at hout
    injection hout with hout
    subst hout
    exact stream_round_length S left right key

theorem C6_stream_round_derived_key_witness :
    testStream.keySize ≤ ([4, 5] : List Byte).length ∧
    ([9] : List Byte).length = testStream.keySize ∧
    (xor [4, 5] [9] = xor (([4, 5] : List Byte).take testStream.keySize) [9] ∧
     right_xor_assign_stream testStream [4, 5] [6] [9]
       = some (List.zipWith Nat.xor [6]
           (testStream.keystream (xor [4, 5] [9])
             (List.replicate testStream.ivSize 0) ([6] : List Byte).length)) ∧
     ∀ out, right_xor_assign_stream testStream [4, 5] [6] [9] = some out →
       out.length = ([6] : List Byte).length) :=
  ⟨by decide, by decide,
   C6_stream_round_derived_key testStream [4, 5] [6] [9] (by decide) (by decide)⟩

/-- C7: construction succeeds exactly when the master key has length
`2*(StreamKeySize+MacKeySize)` and the `MacOutputSize ≥ StreamKeySize`
assertion holds; violating either is the fatal (`none`) path. -/
theorem C7_new_guards (S : StreamPrim) (H : MacPrim) (key : List Byte) :
    (Lioness.new S H key).isSome ↔
      (key.length = 2 * (S.keySize + H.keySize) ∧ S.keySize ≤ H.outputSize) := by
  unfold Lioness.new
  split_ifs with h1 h2 <;> simp_all

/-- C8: each round function is an involution on its designated half with the
other half and key fixed: the digest round applied twice to `left` (with the
same `right` and key) restores `left` and preserves its length; the stream
round applied twice to `right` (with the same `left` and key) restores
`right` and preserves its length.  In this functional embedding each round
returns only its designated half, so the other half is unchanged by
construction. -/
theorem C8_rounds_are_involutions (S : StreamPrim) (H : MacPrim)
    (left right skey dkey : List Byte)
    (hl : left.length = H.outputSize) (hsk : skey.length = S.keySize)
    (hks : S.keySize ≤ H.outputSize) :
    left_xor_assign_digest H (left_xor_assign_digest H left right dkey) right
        dkey = left ∧
    (left_xor_assign_digest H left right dkey).length = left.length ∧
    ∀ out, right_xor_assign_stream S left right skey = some out →
      out.length = right.length ∧
      right_xor_assign_stream S left out skey = some right := by
  refine ⟨left_xor_assign_digest_cancel H left right dkey hl,
          left_xor_assign_digest_length H left right dkey, ?_⟩
  intro out hout
  rw [right_xor_assign_stream_some S left right skey (by omega) hsk] at hout
  injection hout with hout
  subst hout
  refine ⟨stream_round_length S left right skey, ?_⟩
  rw [right_xor_assign_stream_some S left _ skey (by omega) hsk,
    stream_round_cancel]

theorem C8_rounds_are_involutions_witness :
    ([4, 5] : List Byte).length = testMac.outputSize ∧
    ([9] : List Byte).length = testStream.keySize ∧
    testStream.keySize ≤ testMac.outputSize ∧
    (left_xor_assign_digest testMac
        (left_xor_assign_digest testMac [4, 5] [6] [7]) [6] [7] = [4, 5] ∧
     (left_xor_assign_digest testMac [4, 5] [6] [7]).length
        = ([4, 5] : List Byte).length ∧
     ∀ out, right_xor_assign_stream testStream [4, 5] [6] [9] = some out →
       out.length = ([6] : List Byte).length ∧
       right_xor_assign_stream testStream [4, 5] out [9] = some [6]) :=
  ⟨by decide, by decide, by decide,
   C8_rounds_are_involutions testStream testMac [4, 5] [6] [9] [7]
     (by decide) (by decide) (by decide)⟩

/-- C9: a correctly constructed fixed-size adapter (whose constructor asserts
`N > MacOutputSize` and builds the inner instance) can never fail or panic in
`encrypt_block`/`decrypt_block` on a block of its fixed size: the delegated
core call always returns `Ok`, so the `unwrap` never fires. -/
theorem C9_adapter_never_fails (S : StreamPrim) (H : MacPrim) (N : Nat)
    (key block : List Byte) (c : BlockLioness)
    (hc : BlockLioness.new S H N key = some c)
    (hb : block.length = c.blockSize) :
    (∃ out, BlockLioness.encrypt_block S H c block = some out) ∧
    (∃ out, BlockLioness.decrypt_block S H c block = some out) := by
  unfold BlockLioness.new at hc
  split_ifs at hc with hN
  cases hinner : Lioness.new S H key with
  | none =>
    rw [hinner] at hc
    simp at hc
  | some inner =>
    rw [hinner] at hc
    simp only [Option.map_some'] at hc
    injection hc with hc
    subst hc
    have hw := new_some_wf S H key inner hinner
    have hblen : H.outputSize < block.length := by
      simpa using hb ▸ hN
    constructor
    · refine ⟨encryptPure S H inner block, ?_⟩
      simp only [BlockLioness.encrypt_block]
      rw [encrypt_block_eq_pure S H inner block hw hblen]
    · refine ⟨decryptPure S H inner block, ?_⟩
      simp only [BlockLioness.decrypt_block]
      rw [decrypt_block_eq_pure S H inner block hw hblen]

theorem C9_adapter_never_fails_witness :
    BlockLioness.new testStream testMac 3 [1, 2, 3, 4]
        = some ⟨⟨[1], [2], [3], [4]⟩, 3⟩ ∧
    ([7, 8, 9] : List Byte).length
        = (⟨⟨[1], [2], [3], [4]⟩, 3⟩ : BlockLioness).blockSize ∧
    ((∃ out, BlockLioness.encrypt_block testStream testMac
        ⟨⟨[1], [2], [3], [4]⟩, 3⟩ [7, 8, 9] = some out) ∧
     (∃ out, BlockLioness.decrypt_block testStream testMac
        ⟨⟨[1], [2], [3], [4]⟩, 3⟩ [7, 8, 9] = some out)) :=
  ⟨by decide, by decide,
   C9_adapter_never_fails testStream testMac 3 [1, 2, 3, 4] [7, 8, 9]
     ⟨⟨[1], [2], [3], [4]⟩, 3⟩ (by decide) (by decide)⟩

/-- C10: both transforms are deterministic functions of the four subkeys and
the initial block contents alone: instances with equal subkeys applied to
blocks with equal contents produce identical results (status and final block
contents).  The embedding is pure, mirroring the Rust code, which takes
`&self` (immutable) and touches no state other than the caller's block. -/
theorem C10_deterministic_in_keys_and_block (S : StreamPrim) (H : MacPrim)
    (c c' : Lioness) (b b' : List Byte)
    (h1 : c.k1 = c'.k1) (h2 : c.k2 = c'.k2) (h3 : c.k3 = c'.k3)
    (h4 : c.k4 = c'.k4) (hb : b = b') :
    Lioness.encrypt_block S H c b = Lioness.encrypt_block S H c' b' ∧
    Lioness.decrypt_block S H c b = Lioness.decrypt_block S H c' b' := by
  have hcc : c = c' := by
    cases c
    cases c'
    simp_all
  subst hcc
  subst hb
  exact ⟨rfl, rfl⟩

theorem C10_deterministic_in_keys_and_block_witness :
    testKeys.k1 = testKeys.k1 ∧ testKeys.k2 = testKeys.k2 ∧
    testKeys.k3 = testKeys.k3 ∧ testKeys.k4 = testKeys.k4 ∧
    ([1, 2, 3] : List Byte) = [1, 2, 3] ∧
    (Lioness.encrypt_block testStream testMac testKeys [1, 2, 3]
        = Lioness.encrypt_block testStream testMac testKeys [1, 2, 3] ∧
     Lioness.decrypt_block testStream testMac testKeys [1, 2, 3]
        = Lioness.decrypt_block testStream testMac testKeys [1, 2, 3]) :=
  ⟨rfl, rfl, rfl, rfl, rfl,
   C10_deterministic_in_keys_and_block testStream testMac testKeys testKeys
     [1, 2, 3] [1, 2, 3] rfl rfl rfl rfl rfl⟩

end LionessRs
